import Mathlib

/-!
# Verification of the libentangle signaling core

Shallow embedding of the rendezvous-server handlers
(`CommunitiesManager` in the server handlers file) and of the client
handlers (`ClientManager` in pkg/handlers/client_handlers.go), together
with theorems settling the frozen claims about them.

Modelling conventions:
* Go maps with string keys are embedded as association lists; the server
  only ever inserts a key after checking it is absent, so keys stay
  unique, and the auxiliary invariants below track that.
* A `wsjson.Write` call is embedded as an emitted `(Target, SMsg)` pair;
  writes are modelled as succeeding (transport failure is external).
  Indexing a Go map at a missing key yields the zero value of the value
  type; for the server's `macs` map that is the zero `websocket.Conn`,
  embedded as the target `Target.zeroConnFor mac`.
* The external webrtc peer connection is embedded by its observable
  interactions: the calls made on it (`Call`) and the state the client
  code itself inspects (`RemoteDescription() != nil`, i.e. whether a
  remote description has been installed).
-/

namespace Libentangle

abbrev Mac := String
abbrev Community := String
abbrev Payload := String

/-- Server-to-client wire messages emitted by the server handlers. -/
inductive SMsg where
  | rejection
  | acceptance
  | introduction (mac : Mac)
  | resignation (mac : Mac)
  | offerMsg (payload : Payload) (sender receiver : Mac)
  | answerMsg (payload : Payload) (sender receiver : Mac)
  | candidateMsg (payload : Payload) (sender receiver : Mac)
  deriving DecidableEq, Repr

/-- Where a server-side `wsjson.Write` goes: the connection passed to
`HandleApplication` (`applicant`), the connection registered in the
endpoint map for a mac (`endpoint`), or the zero-value `websocket.Conn`
that Go map indexing yields when the mac has no entry (`zeroConnFor`). -/
inductive Target where
  | applicant
  | endpoint (mac : Mac)
  | zeroConnFor (mac : Mac)
  deriving DecidableEq, Repr

/-- The mac a server write is addressed to, when it is addressed via the
endpoint map (present or not). -/
def Target.recipient : Target → Option Mac
  | .applicant => none
  | .endpoint m => some m
  | .zeroConnFor m => some m

/-- Server state: `communities` is the roster map (community name to
insertion-ordered member list), `macs` the endpoint map (here only the
key set matters: the value is the member's connection, written to via
`Target.endpoint`), `introducedPeers` the introduction ledger. -/
structure CommunitiesManager where
  communities : List (Community × List Mac)
  macs : List Mac
  introducedPeers : List (Mac × Mac)
  deriving DecidableEq, Repr

namespace CommunitiesManager

/-- `NewCommunitiesManager`: empty rosters, empty endpoint map. -/
def new : CommunitiesManager := ⟨[], [], []⟩

/-- Association-list lookup, embedding Go map indexing with the comma-ok
idiom (`none` when the key is absent). -/
def lookupRoster (cs : List (Community × List Mac)) (c : Community) :
    Option (List Mac) :=
  match cs with
  | [] => none
  | ce :: rest => if ce.1 = c then some ce.2 else lookupRoster rest c

/-- `m.macs[mac]` as a write target: the registered connection when the
key is present, the zero-value connection otherwise. -/
def writeTarget (m : CommunitiesManager) (mac : Mac) : Target :=
  if mac ∈ m.macs then .endpoint mac else .zeroConnFor mac

/-- Roster-map update `m.communities[c] = append(m.communities[c], mac)`
for an existing key `c`. -/
def appendRoster (cs : List (Community × List Mac)) (c : Community)
    (mac : Mac) : List (Community × List Mac) :=
  cs.map (fun ce => if ce.1 = c then (ce.1, ce.2 ++ [mac]) else ce)

/-- `CommunitiesManager.getCommunity`: scan the rosters, return the first
community whose member list contains `mac`; error otherwise. -/
def getCommunity (m : CommunitiesManager) (mac : Mac) : Option Community :=
  go m.communities
where
  go : List (Community × List Mac) → Option Community
  | [] => none
  | ce :: rest => if mac ∈ ce.2 then some ce.1 else go rest

/-- `CommunitiesManager.introduced`: is the pair in the ledger, in either
orientation? -/
def introduced (l : List (Mac × Mac)) (firstMac secondMac : Mac) : Bool :=
  match l with
  | [] => false
  | pair :: rest =>
      if pair.1 = firstMac ∧ pair.2 = secondMac then true
      else if pair.1 = secondMac ∧ pair.2 = firstMac then true
      else introduced rest firstMac secondMac

/-- `CommunitiesManager.introduce`: append the ordered pair. -/
def introduce (l : List (Mac × Mac)) (firstMac secondMac : Mac) :
    List (Mac × Mac) :=
  l ++ [(firstMac, secondMac)]

/-- `CommunitiesManager.removeAssociatedPairs`: rebuild the ledger,
skipping every pair that involves `mac`. -/
def removeAssociatedPairs (l : List (Mac × Mac)) (mac : Mac) :
    List (Mac × Mac) :=
  l.foldl
    (fun newSlice pair =>
      if pair.1 = mac ∨ pair.2 = mac then newSlice
      else newSlice ++ [pair]) []

/-- The index computed by `deleteCommunity`'s scan: the last index whose
element equals `str`, or 0 when `str` does not occur (`elementIndex` is
a zero-initialized Go variable). -/
def elementIndex (s : List Mac) (str : Mac) : Nat :=
  (s.foldl
    (fun (acc : Nat × Nat) element =>
      (if element = str then acc.2 else acc.1, acc.2 + 1))
    (0, 0)).1

/-- `CommunitiesManager.deleteCommunity`: drop the element at
`elementIndex s str`. -/
def deleteCommunity (s : List Mac) (str : Mac) : List Mac :=
  s.take (elementIndex s str) ++ s.drop (elementIndex s str + 1)

/-- `CommunitiesManager.HandleApplication`. Returns the new state and the
messages written (all to the applying connection). -/
def HandleApplication (m : CommunitiesManager) (community : Community)
    (mac : Mac) : CommunitiesManager × List (Target × SMsg) :=
  if mac ∈ m.macs then
    (m, [(.applicant, .rejection)])
  else
    let m1 : CommunitiesManager := { m with macs := m.macs ++ [mac] }
    match lookupRoster m1.communities community with
    | some _ =>
        ({ m1 with communities := appendRoster m1.communities community mac },
         [(.applicant, .acceptance)])
    | none =>
        ({ m1 with communities := m1.communities ++ [(community, [mac])] },
         [(.applicant, .acceptance)])

/-- The body of `HandleReady`'s broadcast loop, for one roster member
`mac2`: skip the ready mac itself; for a member not yet introduced to
it, write `Introduction(mac)` to that member's connection and record the
pair in the ledger. -/
def readyStep (m : CommunitiesManager) (mac : Mac)
    (acc : List (Mac × Mac) × List (Target × SMsg)) (mac2 : Mac) :
    List (Mac × Mac) × List (Target × SMsg) :=
  if mac2 ≠ mac then
    if ¬ introduced acc.1 mac mac2 then
      (introduce acc.1 mac mac2,
       acc.2 ++ [(writeTarget m mac2, .introduction mac)])
    else acc
  else acc

/-- `CommunitiesManager.HandleReady`: look up the ready mac's community,
then for every other roster member not yet introduced to it, write an
`Introduction(readyMac)` to that member and record the pair. -/
def HandleReady (m : CommunitiesManager) (mac : Mac) :
    Except String (CommunitiesManager × List (Target × SMsg)) :=
  match getCommunity m mac with
  | none => .error "This mac is not part of any community so far!"
  | some community =>
      let roster := (lookupRoster m.communities community).getD []
      let step := roster.foldl (readyStep m mac) (m.introducedPeers, [])
      .ok ({ m with introducedPeers := step.1 }, step.2)

/-- `CommunitiesManager.HandleOffer`: write the offer to
`m.macs[receiverMac]` (the zero-value connection when absent). -/
def HandleOffer (m : CommunitiesManager) (payload : Payload)
    (senderMac receiverMac : Mac) : CommunitiesManager × List (Target × SMsg) :=
  (m, [(writeTarget m receiverMac, .offerMsg payload senderMac receiverMac)])

/-- `CommunitiesManager.HandleAnswer`: same relay shape as `HandleOffer`. -/
def HandleAnswer (m : CommunitiesManager) (payload : Payload)
    (senderMac receiverMac : Mac) : CommunitiesManager × List (Target × SMsg) :=
  (m, [(writeTarget m receiverMac, .answerMsg payload senderMac receiverMac)])

/-- `CommunitiesManager.HandleCandidate`: same relay shape as
`HandleOffer`. -/
def HandleCandidate (m : CommunitiesManager) (payload : Payload)
    (senderMac receiverMac : Mac) : CommunitiesManager × List (Target × SMsg) :=
  (m, [(writeTarget m receiverMac, .candidateMsg payload senderMac receiverMac)])

/-- `CommunitiesManager.HandleExited`: purge ledger pairs involving the
mac, write `Resignation(mac)` to every other member of its community,
delete its endpoint entry (the source deletes it twice, which is the
same as once), remove it from the roster via `deleteCommunity`, and
delete the community when the roster became empty. -/
def HandleExited (m : CommunitiesManager) (mac : Mac) :
    Except String (CommunitiesManager × List (Target × SMsg)) :=
  match getCommunity m mac with
  | none => .error "This mac is not part of any community so far!"
  | some community =>
      let ledger := removeAssociatedPairs m.introducedPeers mac
      let roster := (lookupRoster m.communities community).getD []
      let outs :=
        roster.foldl
          (fun os mac2 =>
            if mac2 ≠ mac then os ++ [(writeTarget m mac2, SMsg.resignation mac)]
            else os) []
      let macs2 := m.macs.filter (fun k => k ≠ mac)
      let newRoster := deleteCommunity roster mac
      let communities2 :=
        if newRoster.length = 0 then
          m.communities.filter (fun ce => ce.1 ≠ community)
        else
          m.communities.map
            (fun ce => if ce.1 = community then (ce.1, newRoster) else ce)
      .ok (⟨communities2, macs2, ledger⟩, outs)

/-- Process one `Ready` event in a sequence: a handler error (unknown
mac) leaves the state unchanged and emits nothing; otherwise accumulate
the emitted messages. -/
def readySeqStep (acc : CommunitiesManager × List (Target × SMsg)) (r : Mac) :
    CommunitiesManager × List (Target × SMsg) :=
  match HandleReady acc.1 r with
  | .error _ => acc
  | .ok res => (res.1, acc.2 ++ res.2)

/-- Process a sequence of `Ready` events from state `m`, collecting all
messages the server writes. -/
def runReadys (m : CommunitiesManager) (rs : List Mac) :
    CommunitiesManager × List (Target × SMsg) :=
  rs.foldl readySeqStep (m, [])

/-- Is this server write an `Introduction` for the unordered pair
`{A, B}` — an `Introduction(A)` addressed to `B` or an `Introduction(B)`
addressed to `A`? -/
def isIntroFor (A B : Mac) (out : Target × SMsg) : Bool :=
  match out.2 with
  | .introduction x =>
      if (x = A ∧ out.1.recipient = some B) ∨
         (x = B ∧ out.1.recipient = some A) then true else false
  | _ => false

/-- Number of `Introduction` messages for the unordered pair `{A, B}`
among the server's writes. -/
def introCountFor (A B : Mac) (outs : List (Target × SMsg)) : Nat :=
  (outs.filter (isIntroFor A B)).length

/-- 1 when the ledger records the pair `{A, B}` in either orientation
(the commutative query `introduced`), else 0. -/
def ledgerFlag (A B : Mac) (l : List (Mac × Mac)) : Nat :=
  if introduced l A B then 1 else 0

/-- An `Application` or `Exited` event driven into the server. -/
inductive SEvent where
  | applicationEv (community : Community) (mac : Mac)
  | exitedEv (mac : Mac)
  deriving DecidableEq, Repr

/-- Apply one event's handler to the server state (a handler error —
`Exited` for an unregistered mac — leaves the state unchanged). -/
def serverStep (m : CommunitiesManager) (e : SEvent) : CommunitiesManager :=
  match e with
  | .applicationEv c mac => (HandleApplication m c mac).1
  | .exitedEv mac =>
      match HandleExited m mac with
      | .error _ => m
      | .ok res => res.1

/-- Run a sequence of `Application`/`Exited` events from the empty
server state. -/
def runServer (evs : List SEvent) : CommunitiesManager :=
  evs.foldl serverStep new

/-- All roster members across all communities, in roster order. -/
def allRosterMacs (m : CommunitiesManager) : List Mac :=
  (m.communities.map (fun ce => ce.2)).flatten

/-- Well-formedness of the server state, established for every state
reachable from `new` by `Application`/`Exited` events: unique community
keys, a duplicate-free endpoint map, no mac twice across all rosters, no
empty roster, and a mac is in some roster iff it has an endpoint entry. -/
structure WF (m : CommunitiesManager) : Prop where
  keysNodup : (m.communities.map Prod.fst).Nodup
  macsNodup : m.macs.Nodup
  rostersNodup : (allRosterMacs m).Nodup
  nonEmptyRosters : ∀ ce ∈ m.communities, ce.2 ≠ []
  macsMatch : ∀ x, x ∈ m.macs ↔ x ∈ allRosterMacs m

end CommunitiesManager

/-- Calls the client handlers make on the external webrtc peer
connection (the interesting ones for the claims: installing a remote
description and adding an ICE candidate). -/
inductive Call where
  | setRemoteDescription (p : Payload)
  | addICECandidate (p : Payload)
  deriving DecidableEq, Repr

/-- Client-side per-remote state: the peer-connection handle is embedded
by the state the client code inspects on it (`remoteDescription`, i.e.
`RemoteDescription() != nil` iff `isSome`), plus the candidate buffer.
The data-channel handle carries no state the claims inspect. -/
structure Peer where
  remoteDescription : Option Payload
  candidates : List Payload
  deriving DecidableEq, Repr

/-- Client state: the peer map. -/
structure ClientManager where
  peers : List (Mac × Peer)
  deriving DecidableEq, Repr

namespace ClientManager

/-- Association-list lookup for the client's peer map. -/
def lookupAssoc (l : List (Mac × Peer)) (mac : Mac) : Option Peer :=
  match l with
  | [] => none
  | e :: rest => if e.1 = mac then some e.2 else lookupAssoc rest mac

/-- Association-list update-or-insert for the client's peer map (a Go
map holds each key once, so updating the first hit is exact). -/
def setAssoc (l : List (Mac × Peer)) (mac : Mac) (p : Peer) :
    List (Mac × Peer) :=
  match l with
  | [] => [(mac, p)]
  | e :: rest => if e.1 = mac then (mac, p) :: rest else e :: setAssoc rest mac p

/-- Go map indexing `m.peers[mac]`: `none` embeds the nil pointer a
missing key yields. -/
def lookupPeer (m : ClientManager) (mac : Mac) : Option Peer :=
  lookupAssoc m.peers mac

/-- Go map assignment `m.peers[mac] = p`. -/
def setPeer (m : ClientManager) (mac : Mac) (p : Peer) : ClientManager :=
  ⟨setAssoc m.peers mac p⟩

/-- `ClientManager.createPeer` as it affects the peer map: a fresh peer
connection (no remote description yet) with an empty candidate buffer is
stored under `mac`, replacing any previous entry. -/
def createPeer (m : ClientManager) (mac : Mac) : ClientManager :=
  setPeer m mac ⟨none, []⟩

/-- `ClientManager.getPeerConnection`: returns
`m.peers[mac].connection, nil`. The error result is always `none` (Go
`nil`); when the key is missing, `m.peers[mac]` is a nil pointer and
the field access panics, embedded as the outer `none`. -/
def getPeerConnection (m : ClientManager) (mac : Mac) :
    Option (Peer × Option String) :=
  match lookupPeer m mac with
  | some p => some (p, none)
  | none => none

/-- `ClientManager.HandleOffer`, restricted to the peer map and the
peer-connection calls: create a fresh peer for the sender, install the
offer payload as its remote description (the answer it then creates and
sends back does not touch the peer map). `none` embeds a panic. -/
def HandleOffer (m : ClientManager) (senderMac : Mac) (payload : Payload) :
    Option (ClientManager × List Call) :=
  let m1 := createPeer m senderMac
  match lookupPeer m1 senderMac with
  | none => none
  | some p =>
      some (setPeer m1 senderMac { p with remoteDescription := some payload },
            [.setRemoteDescription payload])

/-- `ClientManager.HandleAnswer`: look up the sender's peer connection,
install the answer payload as remote description, then, when the
candidate buffer is non-empty, add every buffered candidate in order and
reset the buffer to empty. `none` embeds the panic of
`getPeerConnection` on a missing sender. -/
def HandleAnswer (m : ClientManager) (senderMac : Mac) (payload : Payload) :
    Option (ClientManager × List Call) :=
  match getPeerConnection m senderMac with
  | none => none
  | some (p, _) =>
      let p1 : Peer := { p with remoteDescription := some payload }
      let calls := [Call.setRemoteDescription payload] ++
        (if p1.candidates.length > 0 then
          p1.candidates.map Call.addICECandidate else [])
      let p2 : Peer :=
        if p1.candidates.length > 0 then { p1 with candidates := [] } else p1
      some (setPeer m senderMac p2, calls)

/-- `ClientManager.HandleCandidate`: look up the sender's peer
connection; when a remote description is installed, add the candidate
immediately; in every case append it to the sender's candidate buffer
(the unconditional append is in the source). `none` embeds the panic on
a missing sender. -/
def HandleCandidate (m : ClientManager) (senderMac : Mac) (payload : Payload) :
    Option (ClientManager × List Call) :=
  match getPeerConnection m senderMac with
  | none => none
  | some (p, _) =>
      let calls :=
        if p.remoteDescription.isSome then [Call.addICECandidate payload]
        else []
      some (setPeer m senderMac { p with candidates := p.candidates ++ [payload] },
            calls)

/-- `ClientManager.HandleResignation`: the body is `return nil`. -/
def HandleResignation (m : ClientManager) : ClientManager × Option String :=
  (m, none)

/-- One inbound signaling message for the client, as dispatched by
`SignalingClient.HandleConn`. -/
inductive CEvent where
  | offerEv (senderMac : Mac) (payload : Payload)
  | answerEv (senderMac : Mac) (payload : Payload)
  | candidateEv (senderMac : Mac) (payload : Payload)
  deriving DecidableEq, Repr

/-- Dispatch one inbound message to the matching client handler,
accumulating the peer-connection calls; `none` embeds a panic. -/
def clientStep (acc : ClientManager × List Call) (e : CEvent) :
    Option (ClientManager × List Call) :=
  match e with
  | .offerEv s p => (HandleOffer acc.1 s p).map (fun r => (r.1, acc.2 ++ r.2))
  | .answerEv s p => (HandleAnswer acc.1 s p).map (fun r => (r.1, acc.2 ++ r.2))
  | .candidateEv s p =>
      (HandleCandidate acc.1 s p).map (fun r => (r.1, acc.2 ++ r.2))

/-- Process a sequence of inbound messages on the client. -/
def runClient (m : ClientManager) (evs : List CEvent) :
    Option (ClientManager × List Call) :=
  evs.foldl (fun o e => o.bind (fun acc => clientStep acc e)) (some (m, []))

/-- Number of `AddICECandidate` calls in a call trace. -/
def countAddICE (calls : List Call) : Nat :=
  (calls.filter (fun c =>
    match c with
    | .addICECandidate _ => true
    | _ => false)).length

/-- Number of inbound `Candidate` messages in an event sequence. -/
def countCandidateEvents (evs : List CEvent) : Nat :=
  (evs.filter (fun e =>
    match e with
    | .candidateEv _ _ => true
    | _ => false)).length

/-- The error result of the shared send pattern in `SendMessage` and
`SendMessageUnicast`: bind `err` to the channel send's outcome, return
Go `nil` when `err != nil`, and return `err` (necessarily nil) in the
other branch. -/
def sendResult (sendFails : Bool) : Option String :=
  let err : Option String := if sendFails then some "send error" else none
  match err with
  | some _ => none
  | none => err

/-- `ClientManager.SendMessage`, with the peer map abstracted to its
entries in iteration order, each carrying whether that peer's
data-channel `Send` fails (`chans`), and the wrapped-message marshalling
succeeding (it is a plain struct of strings and bytes). The loop returns
at the first key different from the client's own mac with `sendResult`
of that channel's outcome; the result records the keys written to and
the returned error. -/
def SendMessage (chans : List (Mac × Bool)) (selfMac : Mac) :
    List Mac × Option String :=
  match chans with
  | [] => ([], none)
  | (key, fails) :: rest =>
      if key ≠ selfMac then ([key], sendResult fails)
      else SendMessage rest selfMac

/-- `ClientManager.SendMessageUnicast`, same abstraction: send on
`m.peers[mac].channel` (outer `none` embeds the nil-pointer panic when
`mac` has no entry) and return `sendResult` of the outcome. -/
def SendMessageUnicast (chans : List (Mac × Bool)) (mac : Mac) :
    Option (Option String) :=
  match chans with
  | [] => none
  | (key, fails) :: rest =>
      if key = mac then some (sendResult fails)
      else SendMessageUnicast rest mac

theorem lookupAssoc_setAssoc_same (l : List (Mac × Peer)) (mac : Mac)
    (p : Peer) : lookupAssoc (setAssoc l mac p) mac = some p := by
  induction l with
  | nil => simp [setAssoc, lookupAssoc]
  | cons hd tl ih =>
      by_cases hhd : hd.1 = mac
      · simp [setAssoc, lookupAssoc, hhd]
      · simp [setAssoc, lookupAssoc, hhd, ih]

theorem lookupAssoc_setAssoc_other (l : List (Mac × Peer)) (mac other : Mac)
    (p : Peer) (hne : other ≠ mac) :
    lookupAssoc (setAssoc l mac p) other = lookupAssoc l other := by
  induction l with
  | nil =>
      have hho : ¬ mac = other := fun h => hne h.symm
      simp [setAssoc, lookupAssoc, hho]
  | cons hd tl ih =>
      by_cases hhd : hd.1 = mac
      · have hho : ¬ mac = other := fun h => hne h.symm
        simp [setAssoc, lookupAssoc, hhd, hho]
      · simp only [setAssoc, if_neg hhd]
        by_cases ho : hd.1 = other
        · simp [lookupAssoc, ho]
        · simp [lookupAssoc, ho, ih]

theorem lookupPeer_setPeer_same (m : ClientManager) (mac : Mac) (p : Peer) :
    lookupPeer (setPeer m mac p) mac = some p :=
  lookupAssoc_setAssoc_same m.peers mac p

theorem lookupPeer_setPeer_other (m : ClientManager) (mac other : Mac)
    (p : Peer) (hne : other ≠ mac) :
    lookupPeer (setPeer m mac p) other = lookupPeer m other :=
  lookupAssoc_setAssoc_other m.peers mac other p hne

end ClientManager

/-! ## Theorems settling the claims -/

open CommunitiesManager ClientManager

theorem recipient_writeTarget (m : CommunitiesManager) (x : Mac) :
    (CommunitiesManager.writeTarget m x).recipient = some x := by
  unfold CommunitiesManager.writeTarget
  split <;> rfl

theorem introduced_iff (l : List (Mac × Mac)) (A B : Mac) :
    CommunitiesManager.introduced l A B = true ↔ (A, B) ∈ l ∨ (B, A) ∈ l := by
  induction l with
  | nil => simp [CommunitiesManager.introduced]
  | cons p rest ih =>
      by_cases h1 : p.1 = A ∧ p.2 = B
      · have hp : (A, B) = p := Prod.ext_iff.mpr ⟨h1.1.symm, h1.2.symm⟩
        simp [CommunitiesManager.introduced, h1, List.mem_cons, ← hp]
      · by_cases h2 : p.1 = B ∧ p.2 = A
        · have hp : (B, A) = p := Prod.ext_iff.mpr ⟨h2.1.symm, h2.2.symm⟩
          simp [CommunitiesManager.introduced, h1, h2, List.mem_cons, ← hp]
        · simp only [CommunitiesManager.introduced, if_neg h1, if_neg h2, ih,
            List.mem_cons]
          constructor
          · rintro (h | h)
            · exact Or.inl (Or.inr h)
            · exact Or.inr (Or.inr h)
          · rintro ((h | h) | (h | h))
            · exact absurd ⟨(congrArg Prod.fst h).symm,
                (congrArg Prod.snd h).symm⟩ h1
            · exact Or.inl h
            · exact absurd ⟨(congrArg Prod.fst h).symm,
                (congrArg Prod.snd h).symm⟩ h2
            · exact Or.inr h

theorem introduced_append_true (l : List (Mac × Mac)) (x : Mac × Mac)
    (A B : Mac) (h : CommunitiesManager.introduced l A B = true) :
    CommunitiesManager.introduced (l ++ [x]) A B = true := by
  rw [introduced_iff] at h ⊢
  rcases h with h | h
  · exact Or.inl (List.mem_append_left _ h)
  · exact Or.inr (List.mem_append_left _ h)

theorem introduced_append_of_ne (l : List (Mac × Mac)) (a b A B : Mac)
    (hne : ¬ ((a = A ∧ b = B) ∨ (a = B ∧ b = A))) :
    CommunitiesManager.introduced (l ++ [(a, b)]) A B =
      CommunitiesManager.introduced l A B := by
  have h1 : ¬ (A = a ∧ B = b) := fun hc => hne (Or.inl ⟨hc.1.symm, hc.2.symm⟩)
  have h2 : ¬ (B = a ∧ A = b) := fun hc => hne (Or.inr ⟨hc.1.symm, hc.2.symm⟩)
  have hiff : (CommunitiesManager.introduced (l ++ [(a, b)]) A B = true) ↔
      (CommunitiesManager.introduced l A B = true) := by
    rw [introduced_iff, introduced_iff]
    simp only [List.mem_append, List.mem_singleton, Prod.ext_iff]
    tauto
  exact Bool.eq_iff_iff.mpr hiff

theorem introCountFor_append (A B : Mac) (l1 l2 : List (Target × SMsg)) :
    introCountFor A B (l1 ++ l2) =
      introCountFor A B l1 + introCountFor A B l2 := by
  simp [introCountFor, List.filter_append]

theorem introCountFor_singleton (A B : Mac) (w : Target × SMsg) :
    introCountFor A B [w] = if isIntroFor A B w then 1 else 0 := by
  unfold introCountFor
  by_cases h : isIntroFor A B w <;> simp [List.filter, h]

theorem isIntroFor_write (m : CommunitiesManager) (mac mac2 A B : Mac) :
    isIntroFor A B (CommunitiesManager.writeTarget m mac2,
        SMsg.introduction mac) =
      if (mac = A ∧ mac2 = B) ∨ (mac = B ∧ mac2 = A) then true
      else false := by
  unfold isIntroFor
  rw [recipient_writeTarget]
  simp [Option.some_inj]

theorem ledgerFlag_le_one (A B : Mac) (l : List (Mac × Mac)) :
    ledgerFlag A B l ≤ 1 := by
  unfold ledgerFlag
  split <;> omega

theorem readyFold_intro_bound (m : CommunitiesManager) (mac A B : Mac) :
    ∀ (roster : List Mac) (ledger : List (Mac × Mac))
      (outs : List (Target × SMsg)),
      introCountFor A B
          (roster.foldl (CommunitiesManager.readyStep m mac) (ledger, outs)).2 +
        ledgerFlag A B ledger ≤
      introCountFor A B outs +
        ledgerFlag A B
          (roster.foldl (CommunitiesManager.readyStep m mac) (ledger, outs)).1 := by
  intro roster
  induction roster with
  | nil => intro ledger outs; simp
  | cons mac2 rest ih =>
      intro ledger outs
      rw [List.foldl_cons]
      by_cases hskip : mac2 = mac
      · have hstep : CommunitiesManager.readyStep m mac (ledger, outs) mac2 =
            (ledger, outs) := by
          unfold CommunitiesManager.readyStep
          rw [if_neg (not_not_intro hskip)]
        rw [hstep]
        exact ih ledger outs
      · by_cases hintro : CommunitiesManager.introduced ledger mac mac2 = true
        · have hstep : CommunitiesManager.readyStep m mac (ledger, outs) mac2 =
              (ledger, outs) := by
            unfold CommunitiesManager.readyStep
            rw [if_pos hskip, if_neg (not_not_intro hintro)]
          rw [hstep]
          exact ih ledger outs
        · have hstep : CommunitiesManager.readyStep m mac (ledger, outs) mac2 =
              (ledger ++ [(mac, mac2)],
               outs ++ [(CommunitiesManager.writeTarget m mac2,
                 SMsg.introduction mac)]) := by
            unfold CommunitiesManager.readyStep CommunitiesManager.introduce
            rw [if_pos hskip, if_pos hintro]
          rw [hstep]
          set w : Target × SMsg :=
            (CommunitiesManager.writeTarget m mac2, SMsg.introduction mac)
            with hw
          have hih := ih (ledger ++ [(mac, mac2)]) (outs ++ [w])
          rw [introCountFor_append, introCountFor_singleton] at hih
          by_cases hpair : (mac = A ∧ mac2 = B) ∨ (mac = B ∧ mac2 = A)
          · have hwc : isIntroFor A B w = true := by
              rw [hw, isIntroFor_write, if_pos hpair]
            have hone : (if isIntroFor A B w then 1 else 0) = 1 := by
              rw [hwc]
              decide
            have hflag0 : ledgerFlag A B ledger = 0 := by
              unfold ledgerFlag
              rw [if_neg]
              intro hc
              rw [introduced_iff] at hc
              apply hintro
              rw [introduced_iff]
              rcases hpair with ⟨ha, hb⟩ | ⟨ha, hb⟩
              · rw [ha, hb]; exact hc
              · rw [ha, hb]; exact Or.symm hc
            have hflag1 : ledgerFlag A B (ledger ++ [(mac, mac2)]) = 1 := by
              unfold ledgerFlag
              rw [if_pos]
              rw [introduced_iff]
              rcases hpair with ⟨ha, hb⟩ | ⟨ha, hb⟩
              · refine Or.inl ?_
                rw [← ha, ← hb]
                exact List.mem_append_right _ (List.mem_singleton_self _)
              · refine Or.inr ?_
                rw [← ha, ← hb]
                exact List.mem_append_right _ (List.mem_singleton_self _)
            rw [hone] at hih
            omega
          · have hwc : isIntroFor A B w = false := by
              rw [hw, isIntroFor_write, if_neg hpair]
            have hzero : (if isIntroFor A B w then 1 else 0) = 0 := by
              rw [hwc]
              decide
            have hflag : ledgerFlag A B (ledger ++ [(mac, mac2)]) =
                ledgerFlag A B ledger := by
              unfold ledgerFlag
              rw [introduced_append_of_ne ledger mac mac2 A B hpair]
            rw [hzero] at hih
            omega

theorem readyFold_ledger_mono (m : CommunitiesManager) (mac A B : Mac) :
    ∀ (roster : List Mac) (ledger : List (Mac × Mac))
      (outs : List (Target × SMsg)),
      CommunitiesManager.introduced ledger A B = true →
      CommunitiesManager.introduced
        (roster.foldl (CommunitiesManager.readyStep m mac) (ledger, outs)).1
        A B = true := by
  intro roster
  induction roster with
  | nil => intro ledger outs h; simpa using h
  | cons mac2 rest ih =>
      intro ledger outs h
      rw [List.foldl_cons]
      unfold CommunitiesManager.readyStep
      split
      · split
        · exact ih _ _ (introduced_append_true ledger (mac, mac2) A B h)
        · exact ih _ _ h
      · exact ih _ _ h

theorem handleReady_intro_bound (m : CommunitiesManager) (r A B : Mac)
    (m2 : CommunitiesManager) (os : List (Target × SMsg))
    (h : CommunitiesManager.HandleReady m r = .ok (m2, os)) :
    introCountFor A B os + ledgerFlag A B m.introducedPeers ≤
      ledgerFlag A B m2.introducedPeers ∧
    ledgerFlag A B m.introducedPeers ≤ ledgerFlag A B m2.introducedPeers := by
  unfold CommunitiesManager.HandleReady at h
  cases hg : CommunitiesManager.getCommunity m r with
  | none => rw [hg] at h; exact absurd h (by simp)
  | some community =>
      rw [hg] at h
      simp only [Except.ok.injEq, Prod.mk.injEq] at h
      obtain ⟨hm2, hos⟩ := h
      set roster :=
        (CommunitiesManager.lookupRoster m.communities community).getD []
        with hroster
      have hfold := readyFold_intro_bound m r A B roster m.introducedPeers []
      have hledger : m2.introducedPeers =
          (roster.foldl (CommunitiesManager.readyStep m r)
            (m.introducedPeers, [])).1 := by
        rw [← hm2]
      have h0 : introCountFor A B ([] : List (Target × SMsg)) = 0 := rfl
      rw [h0, Nat.zero_add] at hfold
      constructor
      · rw [hledger, ← hos]
        exact hfold
      · by_cases hi : CommunitiesManager.introduced m.introducedPeers A B = true
        · have hmono :=
            readyFold_ledger_mono m r A B roster m.introducedPeers [] hi
          rw [hledger]
          unfold ledgerFlag
          rw [if_pos hi, if_pos hmono]
        · unfold ledgerFlag
          rw [if_neg hi]
          exact Nat.zero_le _

theorem runReadys_intro_bound_aux (A B : Mac) :
    ∀ (rs : List Mac) (m : CommunitiesManager)
      (outs : List (Target × SMsg)),
      introCountFor A B (rs.foldl readySeqStep (m, outs)).2 +
        ledgerFlag A B m.introducedPeers ≤
      introCountFor A B outs +
        ledgerFlag A B (rs.foldl readySeqStep (m, outs)).1.introducedPeers := by
  intro rs
  induction rs with
  | nil => intro m outs; simp
  | cons r rest ih =>
      intro m outs
      rw [List.foldl_cons]
      cases hh : CommunitiesManager.HandleReady m r with
      | error e =>
          simp only [readySeqStep, hh]
          exact ih m outs
      | ok res =>
          obtain ⟨m2, os⟩ := res
          simp only [readySeqStep, hh]
          have hb := handleReady_intro_bound m r A B m2 os hh
          have hih := ih m2 (outs ++ os)
          rw [introCountFor_append] at hih
          omega

/-- C2: over any sequence of `Ready` events processed by the server,
each unordered pair `{A, B}` is sent at most one `Introduction`
(counting an `Introduction(A)` addressed to `B` and an `Introduction(B)`
addressed to `A`); moreover when the starting ledger already records the
pair in either orientation — `introduced` queries commutatively, so
`ledgerFlag` is 1 — no `Introduction` at all is sent for the pair. -/
theorem ready_pair_introduced_at_most_once
    (m : CommunitiesManager) (rs : List Mac) (A B : Mac) :
    introCountFor A B (runReadys m rs).2 +
      ledgerFlag A B m.introducedPeers ≤ 1 := by
  have h := runReadys_intro_bound_aux A B rs m []
  have hle : ledgerFlag A B
      (rs.foldl readySeqStep (m, [])).1.introducedPeers ≤ 1 :=
    ledgerFlag_le_one A B _
  have h0 : introCountFor A B ([] : List (Target × SMsg)) = 0 := rfl
  unfold runReadys
  omega

theorem removeAssociatedPairs_go (mac : Mac) :
    ∀ (l acc : List (Mac × Mac)),
      l.foldl
          (fun newSlice pair =>
            if pair.1 = mac ∨ pair.2 = mac then newSlice
            else newSlice ++ [pair]) acc =
        acc ++ l.filter (fun pair => ¬ (pair.1 = mac ∨ pair.2 = mac)) := by
  intro l
  induction l with
  | nil => intro acc; simp
  | cons p rest ih =>
      intro acc
      rw [List.foldl_cons]
      by_cases hp : p.1 = mac ∨ p.2 = mac
      · rw [if_pos hp, ih]
        simp [List.filter_cons]
        rw [if_neg (fun hc => hp.elim (fun h => hc.1 h) (fun h => hc.2 h))]
      · rw [if_neg hp, ih]
        push_neg at hp
        simp [List.filter_cons]
        rw [if_pos hp]

theorem removeAssociatedPairs_eq_filter (l : List (Mac × Mac)) (mac : Mac) :
    CommunitiesManager.removeAssociatedPairs l mac =
      l.filter (fun pair => ¬ (pair.1 = mac ∨ pair.2 = mac)) := by
  unfold CommunitiesManager.removeAssociatedPairs
  rw [removeAssociatedPairs_go]
  simp

theorem exitedFold_eq_map (mac : Mac) (g : Mac → Target × SMsg) :
    ∀ (roster : List Mac) (acc : List (Target × SMsg)),
      roster.foldl
          (fun os mac2 => if mac2 ≠ mac then os ++ [g mac2] else os) acc =
        acc ++ (roster.filter (fun x => x ≠ mac)).map g := by
  intro roster
  induction roster with
  | nil => intro acc; simp
  | cons x rest ih =>
      intro acc
      rw [List.foldl_cons]
      by_cases hx : x ≠ mac
      · rw [if_pos hx, ih]
        simp [List.filter_cons, hx]
      · rw [if_neg hx, ih]
        simp [List.filter_cons, hx]

theorem lookupRoster_of_mem (cs : List (Community × List Mac))
    (c : Community) (r : List Mac)
    (hk : (cs.map Prod.fst).Nodup) (hm : (c, r) ∈ cs) :
    CommunitiesManager.lookupRoster cs c = some r := by
  induction cs with
  | nil => simp at hm
  | cons ce rest ih =>
      rw [List.map_cons, List.nodup_cons] at hk
      rcases List.mem_cons.mp hm with hce | hrest
      · rw [← hce]
        simp [CommunitiesManager.lookupRoster]
      · by_cases hkey : ce.1 = c
        · exact absurd (hkey ▸ List.mem_map_of_mem Prod.fst hrest) hk.1
        · simp only [CommunitiesManager.lookupRoster, if_neg hkey]
          exact ih hk.2 hrest

theorem keys_split_not_mem (l1 l2 : List (Community × List Mac))
    (c : Community) (r : List Mac)
    (hk : ((l1 ++ (c, r) :: l2).map Prod.fst).Nodup) :
    (∀ ce ∈ l1, ce.1 ≠ c) ∧ (∀ ce ∈ l2, ce.1 ≠ c) := by
  rw [List.map_append, List.map_cons] at hk
  rw [List.nodup_append] at hk
  obtain ⟨h1, h2, hdisj⟩ := hk
  rw [List.nodup_cons] at h2
  constructor
  · intro ce hce he
    exact hdisj (List.mem_map.mpr ⟨ce, hce, he⟩) (List.mem_cons_self _ _)
  · intro ce hce he
    exact h2.1 (List.mem_map.mpr ⟨ce, hce, he⟩)

theorem assoc_decomp (cs : List (Community × List Mac)) (c : Community)
    (r : List Mac) (hk : (cs.map Prod.fst).Nodup) (hm : (c, r) ∈ cs) :
    ∃ l1 l2, cs = l1 ++ (c, r) :: l2 ∧
      (∀ ce ∈ l1, ce.1 ≠ c) ∧ (∀ ce ∈ l2, ce.1 ≠ c) := by
  obtain ⟨l1, l2, rfl⟩ := List.append_of_mem hm
  obtain ⟨h1, h2⟩ := keys_split_not_mem l1 l2 c r hk
  exact ⟨l1, l2, rfl, h1, h2⟩

theorem getCommunity_go_first (mac : Mac) (community : Community)
    (roster : List Mac) :
    ∀ (cs : List (Community × List Mac)),
      (community, roster) ∈ cs → mac ∈ roster →
      (∀ ce ∈ cs, ce.1 ≠ community → mac ∉ ce.2) →
      CommunitiesManager.getCommunity.go mac cs = some community := by
  intro cs
  induction cs with
  | nil => intro hm _ _; simp at hm
  | cons ce rest ih =>
      intro hm hmac honly
      by_cases hin : mac ∈ ce.2
      · have hkey : ce.1 = community := by
          by_contra hne
          exact honly ce (List.mem_cons_self _ _) hne hin
        simp [CommunitiesManager.getCommunity.go, hin, hkey]
      · have hrest : (community, roster) ∈ rest := by
          rcases List.mem_cons.mp hm with hce | h
          · exact absurd (show mac ∈ ce.2 by rw [← hce]; exact hmac) hin
          · exact h
        simp only [CommunitiesManager.getCommunity.go, if_neg hin]
        exact ih hrest hmac (fun ce2 h2 => honly ce2 (List.mem_cons_of_mem _ h2))

theorem getCommunity_of_first (m : CommunitiesManager) (mac : Mac)
    (community : Community) (roster : List Mac)
    (hmem : (community, roster) ∈ m.communities) (hmac : mac ∈ roster)
    (honly : ∀ ce ∈ m.communities, ce.1 ≠ community → mac ∉ ce.2) :
    CommunitiesManager.getCommunity m mac = some community := by
  unfold CommunitiesManager.getCommunity
  exact getCommunity_go_first mac community roster m.communities hmem hmac honly

theorem elementIndexFold_no_occ (str : Mac) :
    ∀ (xs : List Mac) (b i : Nat), str ∉ xs →
      xs.foldl
          (fun (acc : Nat × Nat) element =>
            (if element = str then acc.2 else acc.1, acc.2 + 1)) (b, i) =
        (b, i + xs.length) := by
  intro xs
  induction xs with
  | nil => intro b i _; simp
  | cons x rest ih =>
      intro b i hx
      rw [List.foldl_cons]
      have hxs : ¬ x = str := fun he => hx (List.mem_cons.mpr (Or.inl he.symm))
      rw [if_neg hxs]
      rw [ih b (i + 1) (fun hm => hx (List.mem_cons_of_mem _ hm))]
      simp only [List.length_cons]
      congr 1
      omega

theorem elementIndex_append (str : Mac) (l1 l2 : List Mac)
    (h1 : str ∉ l1) (h2 : str ∉ l2) :
    CommunitiesManager.elementIndex (l1 ++ str :: l2) str = l1.length := by
  unfold CommunitiesManager.elementIndex
  rw [List.foldl_append]
  rw [elementIndexFold_no_occ str l1 0 0 h1]
  rw [List.foldl_cons]
  rw [if_pos rfl]
  simp only [Nat.zero_add]
  rw [elementIndexFold_no_occ str l2 l1.length (l1.length + 1) h2]

theorem deleteCommunity_split (r1 r2 : List Mac) (mac : Mac)
    (h1 : mac ∉ r1) (h2 : mac ∉ r2) :
    CommunitiesManager.deleteCommunity (r1 ++ mac :: r2) mac = r1 ++ r2 := by
  unfold CommunitiesManager.deleteCommunity
  rw [elementIndex_append mac r1 r2 h1 h2]
  congr 1
  · exact List.take_left r1 (mac :: r2)
  · have hsplit : r1 ++ mac :: r2 = (r1 ++ [mac]) ++ r2 := by simp
    rw [hsplit]
    have hlen : r1.length + 1 = (r1 ++ [mac]).length := by simp
    rw [hlen]
    exact List.drop_left _ _

theorem deleteCommunity_decomp (roster : List Mac) (mac : Mac)
    (hnd : roster.Nodup) (hmem : mac ∈ roster) :
    ∃ r1 r2, roster = r1 ++ mac :: r2 ∧ mac ∉ r1 ∧ mac ∉ r2 ∧
      CommunitiesManager.deleteCommunity roster mac = r1 ++ r2 := by
  obtain ⟨r1, r2, rfl⟩ := List.append_of_mem hmem
  rw [List.nodup_append] at hnd
  obtain ⟨_, hcons, hdisj⟩ := hnd
  rw [List.nodup_cons] at hcons
  have h1 : mac ∉ r1 := fun hm => hdisj hm (List.mem_cons_self _ _)
  have h2 : mac ∉ r2 := hcons.1
  exact ⟨r1, r2, rfl, h1, h2, deleteCommunity_split r1 r2 mac h1 h2⟩

theorem map_keyfix (c : Community) (nr : List Mac) :
    ∀ (l : List (Community × List Mac)), (∀ ce ∈ l, ce.1 ≠ c) →
      l.map (fun ce => if ce.1 = c then (ce.1, nr) else ce) = l := by
  intro l
  induction l with
  | nil => intro _; rfl
  | cons ce rest ih =>
      intro h
      rw [List.map_cons, if_neg (h ce (List.mem_cons_self _ _)), ih]
      exact fun ce2 h2 => h ce2 (List.mem_cons_of_mem _ h2)

theorem mapRoster_update (l1 l2 : List (Community × List Mac))
    (c : Community) (r nr : List Mac)
    (h1 : ∀ ce ∈ l1, ce.1 ≠ c) (h2 : ∀ ce ∈ l2, ce.1 ≠ c) :
    (l1 ++ (c, r) :: l2).map
        (fun ce => if ce.1 = c then (ce.1, nr) else ce) =
      l1 ++ (c, nr) :: l2 := by
  rw [List.map_append, List.map_cons]
  rw [map_keyfix c nr l1 h1, map_keyfix c nr l2 h2]
  rw [if_pos rfl]

theorem filter_keyremove (c : Community) :
    ∀ (l : List (Community × List Mac)), (∀ ce ∈ l, ce.1 ≠ c) →
      l.filter (fun ce => ce.1 ≠ c) = l := by
  intro l
  induction l with
  | nil => intro _; rfl
  | cons ce rest ih =>
      intro h
      rw [List.filter_cons]
      rw [if_pos (by simp [h ce (List.mem_cons_self _ _)])]
      rw [ih (fun ce2 h2 => h ce2 (List.mem_cons_of_mem _ h2))]

theorem filterKey_split (l1 l2 : List (Community × List Mac))
    (c : Community) (r : List Mac)
    (h1 : ∀ ce ∈ l1, ce.1 ≠ c) (h2 : ∀ ce ∈ l2, ce.1 ≠ c) :
    (l1 ++ (c, r) :: l2).filter (fun ce => ce.1 ≠ c) = l1 ++ l2 := by
  rw [List.filter_append, filter_keyremove c l1 h1]
  congr 1
  rw [List.filter_cons]
  rw [if_neg (by simp)]
  exact filter_keyremove c l2 h2

theorem lookupRoster_mem (cs : List (Community × List Mac)) (c : Community)
    (r : List Mac) (h : CommunitiesManager.lookupRoster cs c = some r) :
    (c, r) ∈ cs := by
  induction cs with
  | nil => simp [CommunitiesManager.lookupRoster] at h
  | cons ce rest ih =>
      by_cases hkey : ce.1 = c
      · simp only [CommunitiesManager.lookupRoster, if_pos hkey,
          Option.some_inj] at h
        refine List.mem_cons.mpr (Or.inl ?_)
        rw [Prod.ext_iff]
        exact ⟨hkey.symm, h.symm⟩
      · simp only [CommunitiesManager.lookupRoster, if_neg hkey] at h
        exact List.mem_cons_of_mem _ (ih h)

theorem lookupRoster_none (cs : List (Community × List Mac)) (c : Community)
    (h : CommunitiesManager.lookupRoster cs c = none) :
    ∀ ce ∈ cs, ce.1 ≠ c := by
  induction cs with
  | nil => intro ce hce; simp at hce
  | cons ce0 rest ih =>
      by_cases hkey : ce0.1 = c
      · simp [CommunitiesManager.lookupRoster, if_pos hkey] at h
      · simp only [CommunitiesManager.lookupRoster, if_neg hkey] at h
        intro ce hce
        rcases List.mem_cons.mp hce with hc0 | hcr
        · rw [hc0]; exact hkey
        · exact ih h ce hcr

theorem getCommunity_go_spec (mac : Mac) :
    ∀ (cs : List (Community × List Mac)) (c : Community),
      CommunitiesManager.getCommunity.go mac cs = some c →
      ∃ r, (c, r) ∈ cs ∧ mac ∈ r := by
  intro cs
  induction cs with
  | nil => intro c h; simp [CommunitiesManager.getCommunity.go] at h
  | cons ce rest ih =>
      intro c h
      by_cases hin : mac ∈ ce.2
      · simp only [CommunitiesManager.getCommunity.go, if_pos hin,
          Option.some_inj] at h
        refine ⟨ce.2, ?_, hin⟩
        rw [← h]
        exact List.mem_cons.mpr (Or.inl rfl)
      · simp only [CommunitiesManager.getCommunity.go, if_neg hin] at h
        obtain ⟨r, hr, hm⟩ := ih c h
        exact ⟨r, List.mem_cons_of_mem _ hr, hm⟩

theorem getCommunity_some_spec (m : CommunitiesManager) (mac : Mac)
    (c : Community) (h : CommunitiesManager.getCommunity m mac = some c) :
    ∃ r, (c, r) ∈ m.communities ∧ mac ∈ r :=
  getCommunity_go_spec mac m.communities c h

theorem mem_allRosterMacs (m : CommunitiesManager) (x : Mac) :
    x ∈ CommunitiesManager.allRosterMacs m ↔
      ∃ ce ∈ m.communities, x ∈ ce.2 := by
  unfold CommunitiesManager.allRosterMacs
  rw [List.mem_flatten]
  constructor
  · rintro ⟨l, hl, hx⟩
    rw [List.mem_map] at hl
    obtain ⟨ce, hce, rfl⟩ := hl
    exact ⟨ce, hce, hx⟩
  · rintro ⟨ce, hce, hx⟩
    exact ⟨ce.2, List.mem_map_of_mem _ hce, hx⟩

theorem rosterMacs_split (l1 l2 : List (Community × List Mac))
    (e : Community × List Mac) :
    ((l1 ++ e :: l2).map (fun ce => ce.2)).flatten =
      (l1.map (fun ce => ce.2)).flatten ++
        (e.2 ++ (l2.map (fun ce => ce.2)).flatten) := by
  simp [List.map_append, List.flatten_append]

theorem map_ite_keyfix (c : Community)
    (f : (Community × List Mac) → (Community × List Mac)) :
    ∀ (l : List (Community × List Mac)), (∀ ce ∈ l, ce.1 ≠ c) →
      l.map (fun ce => if ce.1 = c then f ce else ce) = l := by
  intro l
  induction l with
  | nil => intro _; rfl
  | cons ce rest ih =>
      intro h
      rw [List.map_cons, if_neg (h ce (List.mem_cons_self _ _)), ih]
      exact fun ce2 h2 => h ce2 (List.mem_cons_of_mem _ h2)

theorem appendRoster_split (l1 l2 : List (Community × List Mac))
    (c : Community) (r : List Mac) (mac : Mac)
    (h1 : ∀ ce ∈ l1, ce.1 ≠ c) (h2 : ∀ ce ∈ l2, ce.1 ≠ c) :
    CommunitiesManager.appendRoster (l1 ++ (c, r) :: l2) c mac =
      l1 ++ (c, r ++ [mac]) :: l2 := by
  unfold CommunitiesManager.appendRoster
  rw [List.map_append, List.map_cons]
  rw [map_ite_keyfix c _ l1 h1, map_ite_keyfix c _ l2 h2]
  rw [if_pos rfl]

theorem WF_new : CommunitiesManager.WF CommunitiesManager.new := by
  refine ⟨?_, ?_, ?_, ?_, ?_⟩ <;>
    simp [CommunitiesManager.new, CommunitiesManager.allRosterMacs]

theorem handleApplication_eq_dup (m : CommunitiesManager) (c : Community)
    (mac : Mac) (hmac : mac ∈ m.macs) :
    CommunitiesManager.HandleApplication m c mac =
      (m, [(Target.applicant, SMsg.rejection)]) := by
  unfold CommunitiesManager.HandleApplication
  rw [if_pos hmac]

theorem handleApplication_eq_some (m : CommunitiesManager) (c : Community)
    (mac : Mac) (r : List Mac) (hmac : mac ∉ m.macs)
    (hlr : CommunitiesManager.lookupRoster m.communities c = some r) :
    CommunitiesManager.HandleApplication m c mac =
      (⟨CommunitiesManager.appendRoster m.communities c mac,
        m.macs ++ [mac], m.introducedPeers⟩,
       [(Target.applicant, SMsg.acceptance)]) := by
  unfold CommunitiesManager.HandleApplication
  rw [if_neg hmac]
  simp only [hlr]

theorem handleApplication_eq_none (m : CommunitiesManager) (c : Community)
    (mac : Mac) (hmac : mac ∉ m.macs)
    (hlr : CommunitiesManager.lookupRoster m.communities c = none) :
    CommunitiesManager.HandleApplication m c mac =
      (⟨m.communities ++ [(c, [mac])], m.macs ++ [mac], m.introducedPeers⟩,
       [(Target.applicant, SMsg.acceptance)]) := by
  unfold CommunitiesManager.HandleApplication
  rw [if_neg hmac]
  simp only [hlr]

theorem WF_application (m : CommunitiesManager) (c : Community) (mac : Mac)
    (h : CommunitiesManager.WF m) :
    CommunitiesManager.WF (CommunitiesManager.HandleApplication m c mac).1 := by
  by_cases hmac : mac ∈ m.macs
  · rw [handleApplication_eq_dup m c mac hmac]
    exact h
  · have hnotro : mac ∉ CommunitiesManager.allRosterMacs m :=
      fun hc => hmac ((h.macsMatch mac).mpr hc)
    have hmacs2 : (m.macs ++ [mac]).Nodup := by
      rw [List.nodup_append]
      refine ⟨h.macsNodup, List.nodup_singleton mac, ?_⟩
      intro a ha hb
      rw [List.mem_singleton] at hb
      rw [hb] at ha
      exact hmac ha
    cases hlr : CommunitiesManager.lookupRoster m.communities c with
    | some r =>
        rw [handleApplication_eq_some m c mac r hmac hlr]
        have hmemcr := lookupRoster_mem m.communities c r hlr
        obtain ⟨l1, l2, hcs, hk1, hk2⟩ :=
          assoc_decomp m.communities c r h.keysNodup hmemcr
        have happ : CommunitiesManager.appendRoster m.communities c mac =
            l1 ++ (c, r ++ [mac]) :: l2 := by
          rw [hcs]
          exact appendRoster_split l1 l2 c r mac hk1 hk2
        have hflat_old : CommunitiesManager.allRosterMacs m =
            (l1.map (fun ce => ce.2)).flatten ++
              (r ++ (l2.map (fun ce => ce.2)).flatten) := by
          unfold CommunitiesManager.allRosterMacs
          rw [hcs]
          exact rosterMacs_split l1 l2 (c, r)
        have hperm : List.Perm
            ((l1.map (fun ce => ce.2)).flatten ++
              ((r ++ [mac]) ++ (l2.map (fun ce => ce.2)).flatten))
            (((l1.map (fun ce => ce.2)).flatten ++
              (r ++ (l2.map (fun ce => ce.2)).flatten)) ++ [mac]) := by
          have t1 : (l1.map (fun ce => ce.2)).flatten ++
              ((r ++ [mac]) ++ (l2.map (fun ce => ce.2)).flatten) =
              (l1.map (fun ce => ce.2)).flatten ++
                (r ++ ([mac] ++ (l2.map (fun ce => ce.2)).flatten)) := by
            simp [List.append_assoc]
          have t2 : ((l1.map (fun ce => ce.2)).flatten ++
              (r ++ (l2.map (fun ce => ce.2)).flatten)) ++ [mac] =
              (l1.map (fun ce => ce.2)).flatten ++
                (r ++ ((l2.map (fun ce => ce.2)).flatten ++ [mac])) := by
            simp [List.append_assoc]
          rw [t1, t2]
          exact List.Perm.append_left _
            (List.Perm.append_left r List.perm_append_comm)
        refine ⟨?_, hmacs2, ?_, ?_, ?_⟩
        · show ((CommunitiesManager.appendRoster m.communities c mac).map
            Prod.fst).Nodup
          rw [happ]
          have hsame : (l1 ++ (c, r ++ [mac]) :: l2).map Prod.fst =
              (l1 ++ (c, r) :: l2).map Prod.fst := by
            simp [List.map_append, List.map_cons]
          rw [hsame, ← hcs]
          exact h.keysNodup
        · show ((((CommunitiesManager.appendRoster m.communities c mac)).map
            (fun ce => ce.2)).flatten).Nodup
          rw [happ, rosterMacs_split l1 l2 (c, r ++ [mac])]
          rw [List.Perm.nodup_iff hperm]
          rw [List.nodup_append]
          refine ⟨?_, List.nodup_singleton mac, ?_⟩
          · rw [← hflat_old]
            exact h.rostersNodup
          · intro a ha hb
            rw [List.mem_singleton] at hb
            rw [hb] at ha
            rw [← hflat_old] at ha
            exact hnotro ha
        · intro ce hce
          rw [happ] at hce
          rcases List.mem_append.mp hce with h1 | h12
          · exact h.nonEmptyRosters ce
              (by rw [hcs]; exact List.mem_append_left _ h1)
          · rcases List.mem_cons.mp h12 with hc2 | h2
            · rw [hc2]
              simp
            · exact h.nonEmptyRosters ce
                (by rw [hcs];
                    exact List.mem_append_right _ (List.mem_cons_of_mem _ h2))
        · intro x
          show x ∈ m.macs ++ [mac] ↔
            x ∈ (((CommunitiesManager.appendRoster m.communities c mac)).map
              (fun ce => ce.2)).flatten
          rw [happ, rosterMacs_split l1 l2 (c, r ++ [mac])]
          have hx_old : x ∈ m.macs ↔
              x ∈ (l1.map (fun ce => ce.2)).flatten ++
                (r ++ (l2.map (fun ce => ce.2)).flatten) := by
            rw [← hflat_old]
            exact h.macsMatch x
          rw [List.mem_append, hx_old]
          simp only [List.mem_append, List.mem_singleton]
          tauto
    | none =>
        rw [handleApplication_eq_none m c mac hmac hlr]
        have hkeysne : ∀ ce ∈ m.communities, ce.1 ≠ c :=
          lookupRoster_none m.communities c hlr
        have hflat_new :
            (((m.communities ++ [(c, [mac])]).map (fun ce => ce.2)).flatten) =
              CommunitiesManager.allRosterMacs m ++ [mac] := by
          unfold CommunitiesManager.allRosterMacs
          simp [List.map_append, List.flatten_append]
        refine ⟨?_, hmacs2, ?_, ?_, ?_⟩
        · show (((m.communities ++ [(c, [mac])])).map Prod.fst).Nodup
          rw [List.map_append]
          rw [List.nodup_append]
          refine ⟨h.keysNodup, by simp, ?_⟩
          intro a ha hb
          simp only [List.map_cons, List.map_nil, List.mem_singleton] at hb
          rw [List.mem_map] at ha
          obtain ⟨ce, hce, hfst⟩ := ha
          exact hkeysne ce hce (by rw [hfst, hb])
        · show ((((m.communities ++ [(c, [mac])])).map
            (fun ce => ce.2)).flatten).Nodup
          rw [hflat_new]
          rw [List.nodup_append]
          refine ⟨h.rostersNodup, List.nodup_singleton mac, ?_⟩
          intro a ha hb
          rw [List.mem_singleton] at hb
          rw [hb] at ha
          exact hnotro ha
        · intro ce hce
          rcases List.mem_append.mp hce with h1 | h2
          · exact h.nonEmptyRosters ce h1
          · rw [List.mem_singleton] at h2
            rw [h2]
            simp
        · intro x
          show x ∈ m.macs ++ [mac] ↔
            x ∈ (((m.communities ++ [(c, [mac])])).map (fun ce => ce.2)).flatten
          rw [hflat_new, List.mem_append, List.mem_append, h.macsMatch x]

theorem WF_exited_ok (m : CommunitiesManager) (mac : Mac)
    (m2 : CommunitiesManager) (outs : List (Target × SMsg))
    (h : CommunitiesManager.WF m)
    (heq : CommunitiesManager.HandleExited m mac = .ok (m2, outs)) :
    CommunitiesManager.WF m2 := by
  unfold CommunitiesManager.HandleExited at heq
  cases hg : CommunitiesManager.getCommunity m mac with
  | none => rw [hg] at heq; exact absurd heq (by simp)
  | some community =>
      rw [hg] at heq
      obtain ⟨roster, hmem, hmac⟩ := getCommunity_some_spec m mac community hg
      have hlr : CommunitiesManager.lookupRoster m.communities community =
          some roster :=
        lookupRoster_of_mem m.communities community roster h.keysNodup hmem
      simp only [hlr, Option.getD_some, Except.ok.injEq, Prod.mk.injEq] at heq
      obtain ⟨hm2, houts⟩ := heq
      obtain ⟨l1, l2, hcs, hk1, hk2⟩ :=
        assoc_decomp m.communities community roster h.keysNodup hmem
      have hflat_old : CommunitiesManager.allRosterMacs m =
          (l1.map (fun ce => ce.2)).flatten ++
            (roster ++ (l2.map (fun ce => ce.2)).flatten) := by
        unfold CommunitiesManager.allRosterMacs
        rw [hcs]
        exact rosterMacs_split l1 l2 (community, roster)
      have hnodold := h.rostersNodup
      rw [hflat_old] at hnodold
      have hnod := hnodold
      rw [List.nodup_append] at hnod
      obtain ⟨hF1, hmid, hdisj1⟩ := hnod
      rw [List.nodup_append] at hmid
      obtain ⟨hrosnd, hF2, hdisj2⟩ := hmid
      have hmacF1 : mac ∉ (l1.map (fun ce => ce.2)).flatten :=
        fun hc => hdisj1 hc (List.mem_append_left _ hmac)
      have hmacF2 : mac ∉ (l2.map (fun ce => ce.2)).flatten :=
        fun hc => hdisj2 hmac hc
      obtain ⟨r1, r2, hrdec, hr1, hr2, hdel⟩ :=
        deleteCommunity_decomp roster mac hrosnd hmac
      have hmacs2mem : ∀ x, x ∈ m.macs.filter (fun k => k ≠ mac) ↔
          (x ∈ m.macs ∧ x ≠ mac) := by
        intro x
        rw [List.mem_filter]
        simp
      rw [← hm2]
      by_cases hlen : (CommunitiesManager.deleteCommunity roster mac).length = 0
      · -- the roster shrank to nothing: the community entry is removed
        have hnil : CommunitiesManager.deleteCommunity roster mac = [] :=
          List.length_eq_zero.mp hlen
        have hr12 : r1 = [] ∧ r2 = [] := by
          rw [hdel] at hnil
          exact List.append_eq_nil.mp hnil
        have hrsingle : roster = [mac] := by
          rw [hrdec, hr12.1, hr12.2]
          rfl
        have hfilter : m.communities.filter (fun ce => ce.1 ≠ community) =
            l1 ++ l2 := by
          rw [hcs]
          exact filterKey_split l1 l2 community roster hk1 hk2
        rw [if_pos hlen]
        refine ⟨?_, h.macsNodup.filter _, ?_, ?_, ?_⟩
        · show ((m.communities.filter (fun ce => ce.1 ≠ community)).map
            Prod.fst).Nodup
          rw [hfilter]
          have hsub : List.Sublist ((l1 ++ l2).map Prod.fst)
              ((l1 ++ (community, roster) :: l2).map Prod.fst) := by
            simp only [List.map_append, List.map_cons]
            exact List.Sublist.append_left (List.sublist_cons_self _ _) _
          have hk := h.keysNodup
          rw [hcs] at hk
          exact hk.sublist hsub
        · show (((m.communities.filter (fun ce => ce.1 ≠ community)).map
            (fun ce => ce.2)).flatten).Nodup
          rw [hfilter]
          rw [List.map_append, List.flatten_append, List.nodup_append]
          exact ⟨hF1, hF2,
            fun a ha hb => hdisj1 ha (List.mem_append_right _ hb)⟩
        · intro ce hce
          rw [hfilter] at hce
          rcases List.mem_append.mp hce with h1 | h2
          · exact h.nonEmptyRosters ce
              (by rw [hcs]; exact List.mem_append_left _ h1)
          · exact h.nonEmptyRosters ce
              (by rw [hcs];
                  exact List.mem_append_right _ (List.mem_cons_of_mem _ h2))
        · intro x
          show x ∈ m.macs.filter (fun k => k ≠ mac) ↔
            x ∈ (((m.communities.filter (fun ce => ce.1 ≠ community))).map
              (fun ce => ce.2)).flatten
          rw [hmacs2mem x, hfilter, List.map_append, List.flatten_append]
          have hxold := h.macsMatch x
          rw [hflat_old, hrsingle] at hxold
          rw [hxold]
          simp only [List.mem_append, List.mem_singleton]
          constructor
          · rintro ⟨hin, hne⟩
            rcases hin with h1 | h1 | h1
            · exact Or.inl h1
            · exact absurd h1 hne
            · exact Or.inr h1
          · rintro (h1 | h1)
            · exact ⟨Or.inl h1, fun he => hmacF1 (he ▸ h1)⟩
            · exact ⟨Or.inr (Or.inr h1), fun he => hmacF2 (he ▸ h1)⟩
      · -- the shrunk roster stays
        have hne : r1 ++ r2 ≠ [] := by
          intro h0
          rw [hdel] at hlen
          rw [h0] at hlen
          exact hlen rfl
        have hmap : m.communities.map
            (fun ce => if ce.1 = community
              then (ce.1, CommunitiesManager.deleteCommunity roster mac)
              else ce) =
            l1 ++ (community, r1 ++ r2) :: l2 := by
          rw [hcs, hdel]
          exact mapRoster_update l1 l2 community roster _ hk1 hk2
        rw [if_neg hlen]
        refine ⟨?_, h.macsNodup.filter _, ?_, ?_, ?_⟩
        · show ((m.communities.map
            (fun ce => if ce.1 = community
              then (ce.1, CommunitiesManager.deleteCommunity roster mac)
              else ce)).map Prod.fst).Nodup
          rw [hmap]
          have hsame : (l1 ++ (community, r1 ++ r2) :: l2).map Prod.fst =
              (l1 ++ (community, roster) :: l2).map Prod.fst := by
            simp [List.map_append, List.map_cons]
          rw [hsame, ← hcs]
          exact h.keysNodup
        · show (((m.communities.map
            (fun ce => if ce.1 = community
              then (ce.1, CommunitiesManager.deleteCommunity roster mac)
              else ce)).map (fun ce => ce.2)).flatten).Nodup
          rw [hmap, rosterMacs_split l1 l2 (community, r1 ++ r2)]
          have hsub : List.Sublist
              ((l1.map (fun ce => ce.2)).flatten ++
                ((r1 ++ r2) ++ (l2.map (fun ce => ce.2)).flatten))
              ((l1.map (fun ce => ce.2)).flatten ++
                (roster ++ (l2.map (fun ce => ce.2)).flatten)) := by
            refine List.Sublist.append_left ?_ _
            refine List.Sublist.append_right ?_ _
            rw [hrdec]
            exact List.Sublist.append_left (List.sublist_cons_self _ _) _
          exact hnodold.sublist hsub
        · intro ce hce
          rw [hmap] at hce
          rcases List.mem_append.mp hce with h1 | h12
          · exact h.nonEmptyRosters ce
              (by rw [hcs]; exact List.mem_append_left _ h1)
          · rcases List.mem_cons.mp h12 with hc2 | h2
            · rw [hc2]
              exact hne
            · exact h.nonEmptyRosters ce
                (by rw [hcs];
                    exact List.mem_append_right _ (List.mem_cons_of_mem _ h2))
        · intro x
          show x ∈ m.macs.filter (fun k => k ≠ mac) ↔
            x ∈ (((m.communities.map
              (fun ce => if ce.1 = community
                then (ce.1, CommunitiesManager.deleteCommunity roster mac)
                else ce))).map (fun ce => ce.2)).flatten
          rw [hmacs2mem x, hmap, rosterMacs_split l1 l2 (community, r1 ++ r2)]
          have hxold := h.macsMatch x
          rw [hflat_old, hrdec] at hxold
          rw [hxold]
          simp only [List.mem_append, List.mem_cons]
          constructor
          · rintro ⟨hin, hne2⟩
            rcases hin with h1 | h1 | h1
            · exact Or.inl h1
            · rcases h1 with h1a | h1b | h1c
              · exact Or.inr (Or.inl (Or.inl h1a))
              · exact absurd h1b hne2
              · exact Or.inr (Or.inl (Or.inr h1c))
            · exact Or.inr (Or.inr h1)
          · rintro (h1 | h1 | h1)
            · exact ⟨Or.inl h1, fun he => hmacF1 (he ▸ h1)⟩
            · rcases h1 with h1a | h1b
              · exact ⟨Or.inr (Or.inl (Or.inl h1a)),
                  fun he => hr1 (he ▸ h1a)⟩
              · exact ⟨Or.inr (Or.inl (Or.inr (Or.inr h1b))),
                  fun he => hr2 (he ▸ h1b)⟩
            · exact ⟨Or.inr (Or.inr h1), fun he => hmacF2 (he ▸ h1)⟩

theorem WF_step (m : CommunitiesManager) (e : SEvent)
    (h : CommunitiesManager.WF m) :
    CommunitiesManager.WF (CommunitiesManager.serverStep m e) := by
  cases e with
  | applicationEv c mac => exact WF_application m c mac h
  | exitedEv mac =>
      show CommunitiesManager.WF
        (match CommunitiesManager.HandleExited m mac with
         | .error _ => m
         | .ok res => res.1)
      cases heq : CommunitiesManager.HandleExited m mac with
      | error e2 => exact h
      | ok res => exact WF_exited_ok m mac res.1 res.2 h (by rw [heq])

theorem WF_foldl (evs : List SEvent) :
    ∀ m, CommunitiesManager.WF m →
      CommunitiesManager.WF (evs.foldl CommunitiesManager.serverStep m) := by
  induction evs with
  | nil => intro m h; exact h
  | cons e rest ih =>
      intro m h
      rw [List.foldl_cons]
      exact ih _ (WF_step m e h)

theorem WF_run (evs : List SEvent) :
    CommunitiesManager.WF (CommunitiesManager.runServer evs) :=
  WF_foldl evs CommunitiesManager.new WF_new

/-- C5: after any interleaving of `Application` and `Exited` events
processed from the empty server state, a mac appears in some community
roster iff it has an endpoint entry, no mac appears twice across all
rosters (the concatenation of all rosters is duplicate-free), and no
community maps to an empty roster. Since the event list is arbitrary,
this holds after every handler of every interleaving. -/
theorem server_invariant_every_interleaving (evs : List SEvent) :
    (∀ x, (∃ ce ∈ (CommunitiesManager.runServer evs).communities, x ∈ ce.2) ↔
        x ∈ (CommunitiesManager.runServer evs).macs) ∧
    (CommunitiesManager.allRosterMacs (CommunitiesManager.runServer evs)).Nodup ∧
    (∀ ce ∈ (CommunitiesManager.runServer evs).communities, ce.2 ≠ []) := by
  have h := WF_run evs
  refine ⟨?_, h.rostersNodup, h.nonEmptyRosters⟩
  intro x
  rw [← mem_allRosterMacs]
  exact (h.macsMatch x).symm

/-- C4: processing `Exited(mac)` for a mac registered (once, in one
community — the well-formedness every reachable state satisfies, see the
C5 theorem) removes every ledger pair involving `mac` and keeps every
other pair, writes `Resignation(mac)` exactly once to each other current
member of its community in roster order and to nobody else, deletes
`mac`'s endpoint entry and no other, leaves `mac` in no roster, keeps
the community exactly when its shrunk roster is non-empty, and reports
no error. -/
theorem handleExited_purges_notifies_and_cleans
    (m : CommunitiesManager) (mac : Mac) (community : Community)
    (roster : List Mac)
    (hkeys : (m.communities.map Prod.fst).Nodup)
    (hmem : (community, roster) ∈ m.communities)
    (hmac : mac ∈ roster)
    (hnd : (CommunitiesManager.allRosterMacs m).Nodup)
    (honly : ∀ ce ∈ m.communities, ce.1 ≠ community → mac ∉ ce.2) :
    ∃ m2 outs, CommunitiesManager.HandleExited m mac = .ok (m2, outs) ∧
      (∀ q : Mac × Mac, q ∈ m2.introducedPeers ↔
        (q ∈ m.introducedPeers ∧ q.1 ≠ mac ∧ q.2 ≠ mac)) ∧
      outs = (roster.filter (fun x => x ≠ mac)).map
        (fun x => (CommunitiesManager.writeTarget m x,
          SMsg.resignation mac)) ∧
      (∀ x, x ≠ mac →
        (roster.filter (fun y => y ≠ mac)).count x =
          if x ∈ roster then 1 else 0) ∧
      mac ∉ m2.macs ∧
      (∀ x, x ≠ mac → (x ∈ m2.macs ↔ x ∈ m.macs)) ∧
      (∀ ce ∈ m2.communities, mac ∉ ce.2) ∧
      (CommunitiesManager.deleteCommunity roster mac = [] →
        ∀ ce ∈ m2.communities, ce.1 ≠ community) ∧
      (CommunitiesManager.deleteCommunity roster mac ≠ [] →
        (community, CommunitiesManager.deleteCommunity roster mac) ∈
          m2.communities) := by
  obtain ⟨l1, l2, hcs, hk1, hk2⟩ :=
    assoc_decomp m.communities community roster hkeys hmem
  have hg : CommunitiesManager.getCommunity m mac = some community :=
    getCommunity_of_first m mac community roster hmem hmac honly
  have hlr : CommunitiesManager.lookupRoster m.communities community =
      some roster :=
    lookupRoster_of_mem m.communities community roster hkeys hmem
  have hros : roster.Nodup := by
    have h := hnd
    unfold CommunitiesManager.allRosterMacs at h
    rw [hcs] at h
    simp only [List.map_append, List.map_cons, List.flatten_append,
      List.flatten_cons] at h
    exact (List.nodup_append.mp ((List.nodup_append.mp h).2.1)).1
  obtain ⟨r1, r2, hrdec, hr1, hr2, hdel⟩ :=
    deleteCommunity_decomp roster mac hros hmac
  refine ⟨⟨(if (CommunitiesManager.deleteCommunity roster mac).length = 0 then
        m.communities.filter (fun ce => ce.1 ≠ community)
      else
        m.communities.map (fun ce =>
          if ce.1 = community
          then (ce.1, CommunitiesManager.deleteCommunity roster mac)
          else ce)),
      m.macs.filter (fun k => k ≠ mac),
      CommunitiesManager.removeAssociatedPairs m.introducedPeers mac⟩,
    roster.foldl
      (fun os mac2 =>
        if mac2 ≠ mac
        then os ++ [(CommunitiesManager.writeTarget m mac2,
          SMsg.resignation mac)]
        else os) [],
    ?_, ?_, ?_, ?_, ?_, ?_, ?_, ?_, ?_⟩
  · unfold CommunitiesManager.HandleExited
    rw [hg]
    simp only [hlr, Option.getD_some]
  · intro q
    show q ∈ CommunitiesManager.removeAssociatedPairs m.introducedPeers mac ↔ _
    rw [removeAssociatedPairs_eq_filter, List.mem_filter]
    constructor
    · rintro ⟨hq, hp⟩
      have hnp := of_decide_eq_true hp
      push_neg at hnp
      exact ⟨hq, hnp.1, hnp.2⟩
    · rintro ⟨hq, h1, h2⟩
      refine ⟨hq, ?_⟩
      simp [h1, h2]
  · have := exitedFold_eq_map mac
      (fun x => (CommunitiesManager.writeTarget m x, SMsg.resignation mac))
      roster []
    simpa using this
  · intro x hx
    have hxp : x ∈ roster.filter (fun y => y ≠ mac) ↔ x ∈ roster := by
      rw [List.mem_filter]
      simp [hx]
    by_cases hxm : x ∈ roster
    · rw [if_pos hxm]
      exact List.count_eq_one_of_mem (hros.filter _) (hxp.mpr hxm)
    · rw [if_neg hxm]
      exact List.count_eq_zero_of_not_mem (fun hc => hxm (hxp.mp hc))
  · show mac ∉ m.macs.filter (fun k => k ≠ mac)
    simp [List.mem_filter]
  · intro x hx
    show x ∈ m.macs.filter (fun k => k ≠ mac) ↔ x ∈ m.macs
    rw [List.mem_filter]
    simp [hx]
  · intro ce hce
    by_cases hlen : (CommunitiesManager.deleteCommunity roster mac).length = 0
    · rw [if_pos hlen] at hce
      rw [List.mem_filter] at hce
      exact honly ce hce.1 (of_decide_eq_true hce.2)
    · rw [if_neg hlen] at hce
      rw [hcs, mapRoster_update l1 l2 community roster _ hk1 hk2] at hce
      rcases List.mem_append.mp hce with hin1 | hin2
      · exact honly ce (by rw [hcs]; exact List.mem_append_left _ hin1)
          (hk1 ce hin1)
      · rcases List.mem_cons.mp hin2 with hceq | hin2r
        · rw [hceq]
          show mac ∉ CommunitiesManager.deleteCommunity roster mac
          rw [hdel]
          simp [List.mem_append, hr1, hr2]
        · exact honly ce
            (by rw [hcs];
                exact List.mem_append_right _ (List.mem_cons_of_mem _ hin2r))
            (hk2 ce hin2r)
  · intro hdelnil ce hce
    have hlen : (CommunitiesManager.deleteCommunity roster mac).length = 0 := by
      rw [hdelnil]; rfl
    rw [if_pos hlen] at hce
    rw [List.mem_filter] at hce
    exact of_decide_eq_true hce.2
  · intro hne
    have hlen :
        ¬ (CommunitiesManager.deleteCommunity roster mac).length = 0 := by
      intro h0
      exact hne (List.length_eq_zero.mp h0)
    rw [if_neg hlen]
    rw [hcs, mapRoster_update l1 l2 community roster _ hk1 hk2]
    exact List.mem_append_right _ (List.mem_cons_self _ _)

theorem handleExited_purges_notifies_and_cleans_witness :
    ∃ m2 outs,
      CommunitiesManager.HandleExited
        ⟨[("c", ["a", "b"])], ["a", "b"], [("a", "b"), ("x", "y")]⟩ "b" =
        .ok (m2, outs) ∧
      ("x", "y") ∈ m2.introducedPeers ∧
      ("a", "b") ∉ m2.introducedPeers ∧
      "b" ∉ m2.macs := by
  obtain ⟨m2, outs, heq, hledger, houts, hcount, hmac2, hmacs, hrost,
      hempty, hnon⟩ :=
    handleExited_purges_notifies_and_cleans
      ⟨[("c", ["a", "b"])], ["a", "b"], [("a", "b"), ("x", "y")]⟩ "b" "c"
      ["a", "b"] (by decide) (by decide) (by decide) (by decide) (by decide)
  refine ⟨m2, outs, heq, ?_, ?_, hmac2⟩
  · exact (hledger ("x", "y")).mpr ⟨by decide, by decide, by decide⟩
  · intro hmem2
    exact absurd ((hledger ("a", "b")).mp hmem2).2.2 (by decide)

/-- C3: when the server processes an `Application` whose mac is already
registered in the endpoint map, it writes `Rejection` to the applying
connection and mutates nothing: the returned state is exactly the input
state (endpoint map, every roster, and the introduction ledger), and the
handler reports no error (writes are modelled as succeeding, and the
source returns `nil` after a successful rejection write). -/
theorem handleApplication_duplicate_rejects_without_mutation
    (m : CommunitiesManager) (community : Community) (mac : Mac)
    (h : mac ∈ m.macs) :
    CommunitiesManager.HandleApplication m community mac =
      (m, [(Target.applicant, SMsg.rejection)]) := by
  simp [CommunitiesManager.HandleApplication, h]

theorem handleApplication_duplicate_rejects_without_mutation_witness :
    "m1" ∈ (⟨[("c", ["m1"])], ["m1"], []⟩ : CommunitiesManager).macs ∧
    CommunitiesManager.HandleApplication ⟨[("c", ["m1"])], ["m1"], []⟩ "c" "m1" =
      (⟨[("c", ["m1"])], ["m1"], []⟩, [(Target.applicant, SMsg.rejection)]) :=
  ⟨by decide,
   handleApplication_duplicate_rejects_without_mutation
     ⟨[("c", ["m1"])], ["m1"], []⟩ "c" "m1" (by decide)⟩

/-- C7 (evaluation at the failing input): relaying an `Offer`, `Answer`
or `Candidate` whose `receiverMac` is absent from the endpoint map does
not drop the message — each handler leaves the state unchanged but
attempts the relay write on the zero-value connection Go map indexing
yields for the missing key, instead of skipping it with a warning. -/
theorem relay_missing_receiver_writes_to_zero_conn :
    CommunitiesManager.HandleOffer CommunitiesManager.new "p" "a" "r" =
      (CommunitiesManager.new,
       [(Target.zeroConnFor "r", SMsg.offerMsg "p" "a" "r")]) ∧
    CommunitiesManager.HandleAnswer CommunitiesManager.new "p" "a" "r" =
      (CommunitiesManager.new,
       [(Target.zeroConnFor "r", SMsg.answerMsg "p" "a" "r")]) ∧
    CommunitiesManager.HandleCandidate CommunitiesManager.new "p" "a" "r" =
      (CommunitiesManager.new,
       [(Target.zeroConnFor "r", SMsg.candidateMsg "p" "a" "r")]) := by
  refine ⟨?_, ?_, ?_⟩ <;> decide

/-- C8 (counterexample): `ClientManager.HandleResignation` does not
remove the per-remote state of the resigned remote — after processing a
`Resignation` for remote `r`, the peer map still holds `r`'s
peer-connection handle and candidate buffer, contradicting the claim
that the entry is closed and dropped. -/
theorem handleResignation_keeps_remote_entry :
    ClientManager.lookupPeer
      (ClientManager.HandleResignation ⟨[("r", ⟨some "d", ["c"]⟩)]⟩).1 "r" =
      some ⟨some "d", ["c"]⟩ := by
  decide

/-- C8 (amended): `ClientManager.HandleResignation` is a no-op: its body
is `return nil`, so it returns a nil error and leaves the whole peer map
— every remote's peer-connection handle, data-channel handle and
candidate buffer — unchanged, and closes nothing. -/
theorem handleResignation_noop (m : ClientManager) :
    ClientManager.HandleResignation m = (m, none) := rfl

/-- C9: `ClientManager.getPeerConnection` never reports an error — every
non-panicking call returns a nil error component — and on a sender mac
absent from the peer map it unconditionally dereferences the nil map
entry, a panic (embedded as `none`), which propagates to `HandleAnswer`
and `HandleCandidate`; only when a peer entry exists for the mac is that
failure branch unreachable, the call then returning the entry's
connection with a nil error. -/
theorem getPeerConnection_nil_error_or_panic (m : ClientManager) (mac : Mac) :
    (∀ p e, ClientManager.getPeerConnection m mac = some (p, e) → e = none) ∧
    (ClientManager.lookupPeer m mac = none →
      ClientManager.getPeerConnection m mac = none ∧
      (∀ payload, ClientManager.HandleAnswer m mac payload = none) ∧
      (∀ payload, ClientManager.HandleCandidate m mac payload = none)) ∧
    (∀ p, ClientManager.lookupPeer m mac = some p →
      ClientManager.getPeerConnection m mac = some (p, none)) := by
  refine ⟨?_, ?_, ?_⟩
  · intro p e hpe
    unfold ClientManager.getPeerConnection at hpe
    cases h : ClientManager.lookupPeer m mac with
    | none => rw [h] at hpe; exact absurd hpe (by simp)
    | some q => rw [h] at hpe; simp at hpe; exact hpe.2.symm
  · intro h
    refine ⟨?_, ?_, ?_⟩
    · unfold ClientManager.getPeerConnection
      rw [h]
    · intro payload
      unfold ClientManager.HandleAnswer ClientManager.getPeerConnection
      rw [h]
    · intro payload
      unfold ClientManager.HandleCandidate ClientManager.getPeerConnection
      rw [h]
  · intro p h
    unfold ClientManager.getPeerConnection
    rw [h]

/-- C6: when the client processes an `Answer` from remote `R` and a peer
entry for `R` exists, the handler first installs the answer payload as
`R`'s remote description and then drains `R`'s candidate buffer: the
call trace is exactly `SetRemoteDescription` followed by one
`AddICECandidate` per buffered candidate in insertion order, and `R`'s
buffer is empty (with the description installed) in the returned state. -/
theorem handleAnswer_installs_then_drains_buffer
    (m : ClientManager) (senderMac : Mac) (payload : Payload) (p : Peer)
    (h : ClientManager.lookupPeer m senderMac = some p) :
    ClientManager.HandleAnswer m senderMac payload =
      some (ClientManager.setPeer m senderMac ⟨some payload, []⟩,
        Call.setRemoteDescription payload ::
          p.candidates.map Call.addICECandidate) ∧
    ClientManager.lookupPeer
      (ClientManager.setPeer m senderMac ⟨some payload, []⟩) senderMac =
      some ⟨some payload, []⟩ := by
  constructor
  · unfold ClientManager.HandleAnswer ClientManager.getPeerConnection
    rw [h]
    cases hc : p.candidates with
    | nil => simp [hc]
    | cons a t => simp [hc]
  · exact ClientManager.lookupPeer_setPeer_same m senderMac ⟨some payload, []⟩

theorem handleAnswer_installs_then_drains_buffer_witness :
    ClientManager.lookupPeer ⟨[("R", ⟨none, ["c1", "c2"]⟩)]⟩ "R" =
      some ⟨none, ["c1", "c2"]⟩ ∧
    ClientManager.HandleAnswer ⟨[("R", ⟨none, ["c1", "c2"]⟩)]⟩ "R" "a" =
      some (⟨[("R", ⟨some "a", []⟩)]⟩,
        [Call.setRemoteDescription "a", Call.addICECandidate "c1",
         Call.addICECandidate "c2"]) := by
  have h := handleAnswer_installs_then_drains_buffer
    ⟨[("R", ⟨none, ["c1", "c2"]⟩)]⟩ "R" "a" ⟨none, ["c1", "c2"]⟩ (by decide)
  exact ⟨by decide, h.1⟩

/-- C1 (evaluation at the failing input): processing, for remote `R`,
the message sequence Offer, then one Candidate, then Answer makes two
`AddICECandidate` calls for the single `Candidate` received: the
candidate arrives with the remote description installed, is added
immediately, is also unconditionally appended to the buffer, and the
subsequent `Answer` drains the buffer and adds it a second time. -/
theorem candidate_applied_twice_on_offer_candidate_answer :
    (ClientManager.runClient ⟨[]⟩
        [ClientManager.CEvent.offerEv "R" "o",
         ClientManager.CEvent.candidateEv "R" "c",
         ClientManager.CEvent.answerEv "R" "a"]).map
      (fun r => ClientManager.countAddICE r.2) = some 2 ∧
    ClientManager.countCandidateEvents
      [ClientManager.CEvent.offerEv "R" "o",
       ClientManager.CEvent.candidateEv "R" "c",
       ClientManager.CEvent.answerEv "R" "a"] = 1 := by
  constructor <;> decide

/-- C10: whenever the peer map holds at least one key other than the
client's own mac, `SendMessage` writes the wrapped message to exactly
the first such peer's data channel — at most one channel overall — and
returns a nil error whether that channel send fails or succeeds (the
source returns `nil` in the failure branch and the nil `err` in the
success branch); `sendResult` is nil for both outcomes, and every
non-panicking `SendMessageUnicast` call returns the same inverted, nil
result. -/
theorem sendMessage_swallows_send_error
    (chans : List (Mac × Bool)) (selfMac : Mac)
    (h : ∃ e ∈ chans, e.1 ≠ selfMac) :
    (∃ k fails, (k, fails) ∈ chans ∧ k ≠ selfMac ∧
      ClientManager.SendMessage chans selfMac = ([k], none)) ∧
    (∀ b, ClientManager.sendResult b = none) ∧
    (∀ mac r, ClientManager.SendMessageUnicast chans mac = some r →
      r = none) := by
  have hres : ∀ b, ClientManager.sendResult b = none := by
    intro b; cases b <;> rfl
  have huni : ∀ (l : List (Mac × Bool)) (mac : Mac) (r : Option String),
      ClientManager.SendMessageUnicast l mac = some r → r = none := by
    intro l
    induction l with
    | nil =>
        intro mac r hr
        simp [ClientManager.SendMessageUnicast] at hr
    | cons hd tl ih =>
        intro mac r hr
        rw [show hd = (hd.1, hd.2) from rfl] at hr
        simp only [ClientManager.SendMessageUnicast] at hr
        by_cases hk : hd.1 = mac
        · rw [if_pos hk, hres hd.2] at hr
          exact (Option.some_inj.mp hr).symm
        · rw [if_neg hk] at hr
          exact ih mac r hr
  refine ⟨?_, hres, fun mac r hr => huni chans mac r hr⟩
  · induction chans with
    | nil => simp at h
    | cons hd tl ih =>
        by_cases hk : hd.1 ≠ selfMac
        · exact ⟨hd.1, hd.2, by simp, hk,
            by simp [ClientManager.SendMessage, hk, hres]⟩
        · have hsel : hd.1 = selfMac := not_not.mp hk
          have htl : ∃ e ∈ tl, e.1 ≠ selfMac := by
            rcases h with ⟨e, he, hne⟩
            rcases List.mem_cons.mp he with h1 | h1
            · exact absurd (h1 ▸ hne) (by simp [hsel])
            · exact ⟨e, h1, hne⟩
          rcases ih htl with ⟨k, fails, hmem, hne, heq⟩
          refine ⟨k, fails, List.mem_cons_of_mem hd hmem, hne, ?_⟩
          show ClientManager.SendMessage (hd :: tl) selfMac = ([k], none)
          rw [show hd = (hd.1, hd.2) from rfl]
          simp only [ClientManager.SendMessage, hk, if_false]
          exact heq

theorem sendMessage_swallows_send_error_witness :
    (∃ k fails, (k, fails) ∈ [("self", false), ("a", true)] ∧
      k ≠ "self" ∧
      ClientManager.SendMessage [("self", false), ("a", true)] "self" =
        ([k], none)) ∧
    (∀ b, ClientManager.sendResult b = none) := by
  have h := sendMessage_swallows_send_error [("self", false), ("a", true)]
    "self" ⟨("a", true), by decide, by decide⟩
  exact ⟨h.1, h.2.1⟩

theorem getPeerConnection_nil_error_or_panic_witness :
    ClientManager.getPeerConnection ⟨[]⟩ "x" = none ∧
    ClientManager.HandleAnswer ⟨[]⟩ "x" "a" = none ∧
    ClientManager.getPeerConnection ⟨[("y", ⟨none, []⟩)]⟩ "y" =
      some (⟨none, []⟩, none) := by
  have h1 := getPeerConnection_nil_error_or_panic ⟨[]⟩ "x"
  have h2 := getPeerConnection_nil_error_or_panic ⟨[("y", ⟨none, []⟩)]⟩ "y"
  exact ⟨(h1.2.1 rfl).1, (h1.2.1 rfl).2.1 "a", h2.2.2 ⟨none, []⟩ rfl⟩

end Libentangle
